import Mathlib

/-!
Verification of the GIMPS-GPU Mersenne-prime search against its specification.

The development shallowly embeds the two Python source files:

* `MERSENNE.py` — trial-division filter `is_prime`, the exact big-integer
  Lucas-Lehmer test `lucas_lehmer_test`, the verifier
  `verify_mersenne_prime`, and the batched parallel search
  `find_next_mersenne_prime`.
* `Mersenne_GPU.py` — the limb-chunking helpers `split_chunks` /
  `combine_chunks`, the CUDA kernel `lucas_lehmer_kernel_chunked` (which
  performs all its arithmetic in a wrapping signed 64-bit accumulator),
  the driver `lucas_lehmer_test_cuda`, the mod-6 candidate loop of the GPU
  `find_next_mersenne_prime`, and the GPU `verify_mersenne_prime`.

Conventions of the embedding:

* Python integers are `Int` (arbitrary precision, `%` with a positive
  modulus agrees with Python's floor-mod); exponents and loop counters are
  `Nat`.
* Unbounded `while` loops become fuel-indexed recursions returning
  `Option`; `none` models non-termination within the given fuel.
* The kernel's `int64` values are modelled as mathematical integers that
  are renormalised into `[-2^63, 2^63)` after every arithmetic operation
  (`wrap64`), exactly the two's-complement wraparound the hardware
  performs; numba compiles Python's `%` on integers to floor-mod, which is
  `Int.fmod`.
* `multiprocessing.Pool.map` returns results in the order of its input
  list regardless of worker completion order, so a batch of results is
  `List.map` over the candidate list.
-/

/-- `is_prime`'s 6k±1 trial-division loop (`MERSENNE.py` lines 32-36):
`i = 5; while i*i <= n: if n % i == 0 or n % (i+2) == 0: return False; i += 6`.
The loop runs at most `n` times (`i` grows by 6 while `i*i ≤ n`), so fuel `n`
is always sufficient; the fuel-exhausted branch is never reached. -/
def trialLoop (n : Nat) : Nat → Nat → Bool
  | 0, _ => true
  | fuel+1, i =>
    if i * i ≤ n then
      if n % i = 0 || n % (i + 2) = 0 then false
      else trialLoop n fuel (i + 6)
    else true

/-- `is_prime(n)` from `MERSENNE.py` lines 24-37. -/
def is_prime (n : Nat) : Bool :=
  if n ≤ 1 then false
  else if n ≤ 3 then true
  else if n % 2 = 0 || n % 3 = 0 then false
  else trialLoop n n 5

/-- The Lucas-Lehmer iteration of `MERSENNE.py` lines 51-58:
`for _ in range(count): s = (s * s - 2) % M`.  Python's `%` with a positive
modulus is `Int.emod` (`Int`'s `%`). -/
def llIter (M : Int) : Nat → Int → Int
  | 0, s => s
  | n+1, s => llIter M n ((s * s - 2) % M)

/-- `lucas_lehmer_test(p)` from `MERSENNE.py` lines 39-60: `p == 2` is the
hardcoded terminal case; otherwise `M = (1 << p) - 1`, `s = 4`, the
iteration runs `p - 2` times (`range(p-2)` is empty when `p < 3`, matching
`Nat` truncated subtraction) and the test returns `s == 0`. -/
def lucas_lehmer_test (p : Nat) : Bool :=
  if p = 2 then true
  else llIter ((((1 <<< p) - 1 : Nat)) : Int) (p - 2) 4 == 0

/-- `verify_mersenne_prime(p)` from `MERSENNE.py` lines 81-91.  The gmpy2
availability flag (module-level `has_gmpy2`) and the external oracle
`gmpy2.is_prime` are parameters of the embedding. -/
def verify_mersenne_prime (has_gmpy2 : Bool) (oracle : Nat → Bool) (p : Nat) : Bool :=
  let mersenne_candidate := (1 <<< p) - 1
  if has_gmpy2 && decide (p < 100) then oracle mersenne_candidate
  else true

/-- `verify_mersenne_prime(p)` from `Mersenne_GPU.py` lines 85-87: it calls
the external oracle unconditionally, for every `p`. -/
def verify_mersenne_prime_gpu (oracle : Nat → Bool) (p : Nat) : Bool :=
  let mersenne_candidate := (1 <<< p) - 1
  oracle mersenne_candidate

/-- The candidate-skipping loop of `MERSENNE.py` lines 114-115:
`while p in known_exponents or not is_prime(p): p += 2`, returning the first
`p` that survives (the exponent appended to the batch).  Fuel-indexed: the
loop has no a-priori bound in the source. -/
def nextCand (known : List Nat) : Nat → Nat → Option Nat
  | 0, _ => none
  | fuel+1, p =>
    if known.contains p || !is_prime p then nextCand known fuel (p + 2)
    else some p

/-- The batch-generation loop of `MERSENNE.py` lines 112-117: collect
`count` candidates, each obtained by `nextCand`, advancing the scan pointer
to (candidate + 2) after each emission.  Returns the batch together with
the final scan pointer. -/
def genCandidates (known : List Nat) (fuel : Nat) : Nat → Nat → Option (List Nat × Nat)
  | 0, p => some ([], p)
  | count+1, p =>
    match nextCand known fuel p with
    | none => none
    | some c =>
      match genCandidates known fuel count (c + 2) with
      | none => none
      | some (cs, p') => some (c :: cs, p')

/-- `pool.map(lucas_lehmer_test_multiprocessing, candidates)`
(`MERSENNE.py` lines 120-121): each worker returns `(p, lucas_lehmer_test p)`
and `Pool.map` preserves the order of `candidates` regardless of worker
completion order. -/
def batchResults (cs : List Nat) : List (Nat × Bool) :=
  cs.map (fun c => (c, lucas_lehmer_test c))

/-- The `while True` search loop of `MERSENNE.py` lines 110-128: generate a
batch, test it, return `(mersenne_prime, candidate_p)` for the first
(smallest) candidate whose test is true, else continue with the next batch.
The `for candidate_p, is_mersenne in results: if is_mersenne: return ...`
scan is `List.find?` on the second component. -/
def findLoop (known : List Nat) (batch_size : Nat) : Nat → Nat → Option (Nat × Nat)
  | 0, _ => none
  | fuel+1, p =>
    match genCandidates known (fuel+1) batch_size p with
    | none => none
    | some (cs, p') =>
      match (batchResults cs).find? (fun r => r.2) with
      | some r => some ((1 <<< r.1) - 1, r.1)
      | none => findLoop known batch_size fuel p'

/-- `find_next_mersenne_prime(start, known_exponents, num_processes)` from
`MERSENNE.py` lines 93-128: start the scan at the first odd number greater
than `start`, use `batch_size = num_processes * 2`. -/
def find_next_mersenne_prime (start : Nat) (known : List Nat) (num_processes : Nat)
    (fuel : Nat) : Option (Nat × Nat) :=
  let p0 := start + 1
  let p1 := if p0 % 2 = 0 then p0 + 1 else p0
  findLoop known (num_processes * 2) fuel p1

/-- The candidate loop of the GPU `find_next_mersenne_prime`
(`Mersenne_GPU.py` lines 61-69): `p += 1`; skip members of
`known_exponents`; skip `p` with `p % 6 not in {1, 5}`; the first survivor
is the exponent submitted to `lucas_lehmer_test_cuda`.  There is no
primality check in this variant. -/
def nextCandGPU (known : List Nat) : Nat → Nat → Option Nat
  | 0, _ => none
  | fuel+1, p =>
    if known.contains (p + 1) then nextCandGPU known fuel (p + 1)
    else if (p + 1) % 6 ≠ 1 ∧ (p + 1) % 6 ≠ 5 then nextCandGPU known fuel (p + 1)
    else some (p + 1)

/-- Renormalisation of a signed 64-bit register: the unique value in
`[-2^63, 2^63)` congruent mod `2^64`, i.e. two's-complement wraparound. -/
def wrap64 (x : Int) : Int := (x + 2^63) % 2^64 - 2^63

/-- The reconstruction loop of `lucas_lehmer_kernel_chunked`
(`Mersenne_GPU.py` lines 20-22): `M = 0; for i: M += M_chunks[i] << (i *
chunk_size)` with `M` and the shifted chunk held in `int64` registers, so
every step wraps. -/
def reconstructM (chunks : List Int) (chunk_size : Nat) : Int :=
  (List.range chunks.length).foldl
    (fun M i => wrap64 (M + wrap64 ((chunks.getD i 0) * 2 ^ (i * chunk_size)))) 0

/-- The kernel's Lucas-Lehmer loop (`Mersenne_GPU.py` lines 23-24):
`s = (s * s - 2) % M` in `int64`; the square and the subtraction wrap, and
numba's `%` on integers keeps Python's floor-mod semantics (`Int.fmod`),
whose result magnitude is below `|M|` and hence needs no further wrap. -/
def llCudaIter (M : Int) : Nat → Int → Int
  | 0, s => s
  | n+1, s => llCudaIter M n (Int.fmod (wrap64 (wrap64 (s * s) - 2)) M)

/-- `split_chunks(number, chunk_size)` from `Mersenne_GPU.py` lines 27-32:
`while number: chunks.append(number & ((1 << chunk_size) - 1)); number >>=
chunk_size`.  On Python integers `x & ((1 << k) - 1)` is `x` floor-mod
`2^k` (= `Int`'s `%` for this positive modulus) and `x >> k` is floor
division by `2^k` (`Int.fdiv`), for negative `x` as well (two's
complement).  Fuel-indexed: the loop does not terminate on negative input. -/
def split_chunks (chunk_size : Nat) : Nat → Int → Option (List Int)
  | 0, number => if number = 0 then some [] else none
  | fuel+1, number =>
    if number = 0 then some []
    else
      match split_chunks chunk_size fuel (Int.fdiv number (2 ^ chunk_size)) with
      | some rest => some ((number % 2 ^ chunk_size) :: rest)
      | none => none

/-- `split_chunks` called with enough fuel to cover every terminating run:
for `number ≥ 0` fuel `number.toNat` always suffices (proved below), and on
negative input every fuel yields `none`. -/
def splitTerminates (chunk_size : Nat) (number : Int) : Prop :=
  ∃ fuel, (split_chunks chunk_size fuel number).isSome

/-- `combine_chunks(chunks, chunk_size)` from `Mersenne_GPU.py` lines 34-38:
`number = 0; for chunk in reversed(chunks): number = (number << chunk_size)
| chunk`.  Python's `<<` is multiplication by `2^chunk_size` and `|` is
two's-complement bitwise or (`Int.lor`). -/
def combine_chunks (chunks : List Int) (chunk_size : Nat) : Int :=
  chunks.reverse.foldl (fun number chunk => Int.lor (number * 2 ^ chunk_size) chunk) 0

/-- `lucas_lehmer_test_cuda(p)` from `Mersenne_GPU.py` lines 40-58: the host
splits the exact `M = (1 << p) - 1` into 30-bit chunks (each chunk fits an
`int64` exactly), the kernel reconstructs `M` in a wrapping `int64`, runs
the `int64` iteration `p - 2` times from `s = 4`, and the host compares the
returned residue with 0.  `M.toNat + 1` is sufficient fuel for the split
(proved below), so `getD []` never takes its default. -/
def lucas_lehmer_test_cuda (p : Nat) : Bool :=
  if p = 2 then true
  else
    let M : Int := (((1 <<< p) - 1 : Nat) : Int)
    let M_chunks := (split_chunks 30 (M.toNat + 1) M).getD []
    let Mrec := reconstructM M_chunks 30
    llCudaIter Mrec (p - 2) 4 == 0

/-- The Lucas-Lehmer contract in the words of the specification (§4.3):
`s ← 4`; repeat exactly `p − 2` times `s ← (s² − 2) mod (2^p − 1)`; return
`s == 0`; with `p = 2` a hardcoded terminal case returning true. -/
def llSpecStep (p : Nat) (s : Int) : Int := (s ^ 2 - 2) % (2 ^ p - 1)

/-- Specification-side Lucas-Lehmer test (spec §4.3), to be compared with
the source's `lucas_lehmer_test`. -/
def llSpec (p : Nat) : Bool :=
  if p = 2 then true else (llSpecStep p)^[p - 2] 4 == 0

/-- A value the CPU candidate loop will emit: not a member of the known
list and accepted by the trial-division filter. -/
def goodCand (known : List Nat) (c : Nat) : Prop :=
  known.contains c = false ∧ is_prime c = true

/-!
Pure-`Nat` mirrors of the Lucas-Lehmer computation.  The `Int`-valued
embedding above is faithful to the Python source but reduces poorly inside
the proof checker for deep iteration counts; the following mirrors compute
the same values using only `Nat` literal arithmetic (proved equal below)
and are the ones evaluated in the large concrete certificates.
-/

/-- `Nat`-valued Lucas-Lehmer iteration: `(s² − 2) mod M` computed as
`(s·s + (M − 2)) mod M`, which agrees with the `Int` step for every
`M ≥ 1` (adding `M` to the operand does not change the residue). -/
def llIterNat (M : Nat) : Nat → Nat → Nat
  | 0, s => s
  | n+1, s => llIterNat M n ((s * s + (M - 2)) % M)

/-- `Nat`-valued mirror of `lucas_lehmer_test`. -/
def llNat (p : Nat) : Bool :=
  if p = 2 then true
  else llIterNat ((1 <<< p) - 1) (p - 2) 4 == 0

/-- Mirror of `batchResults` using `llNat`. -/
def batchResultsN (cs : List Nat) : List (Nat × Bool) :=
  cs.map (fun c => (c, llNat c))

/-- Mirror of `findLoop` using `batchResultsN`. -/
def findLoopN (known : List Nat) (batch_size : Nat) : Nat → Nat → Option (Nat × Nat)
  | 0, _ => none
  | fuel+1, p =>
    match genCandidates known (fuel+1) batch_size p with
    | none => none
    | some (cs, p') =>
      match (batchResultsN cs).find? (fun r => r.2) with
      | some r => some ((1 <<< r.1) - 1, r.1)
      | none => findLoopN known batch_size fuel p'

/-- Mirror of `find_next_mersenne_prime` using `findLoopN`. -/
def find_nextN (start : Nat) (known : List Nat) (num_processes : Nat) (fuel : Nat) :
    Option (Nat × Nat) :=
  let p0 := start + 1
  let p1 := if p0 % 2 = 0 then p0 + 1 else p0
  findLoopN known (num_processes * 2) fuel p1

/-- The seed exponent list of the end-to-end scenario (`MERSENNE.py`
line 136). -/
def knownC1 : List Nat := [2, 3, 5, 7, 13, 17, 19, 31, 61, 89, 107, 127]

/-- One boolean scan certifying that no exponent strictly between 127 and
521 that passes the trial-division filter has a zero Lucas-Lehmer
residue. -/
def scanB : Bool :=
  (List.range 521).all fun p =>
    !(decide (127 < p)) || !(is_prime p) || (llNat p == false)

/-!  ## Theorems  -/

theorem one_shiftLeft_cast (p : Nat) : ((1 <<< p : Nat) : Int) = 2 ^ p := by
  rw [Nat.one_shiftLeft]
  push_cast
  rfl

theorem llStep_cast (M : Nat) (hM : 1 ≤ M) (s : Nat) :
    ((s : Int) * (s : Int) - 2) % (M : Int) = (((s * s + (M - 2)) % M : Nat) : Int) := by
  rcases Nat.lt_or_ge M 2 with h2 | h2
  · have hM1 : M = 1 := by omega
    subst hM1
    simp [Int.emod_one]
  · have hcast : (((s * s + (M - 2) : Nat)) : Int) = (s : Int) * s - 2 + M * 1 := by
      push_cast [h2]
      ring
    rw [Int.ofNat_emod, hcast, Int.add_mul_emod_self_left]

theorem llIter_cast (M : Nat) (hM : 1 ≤ M) :
    ∀ (n : Nat) (s : Nat), llIter (M : Int) n (s : Int) = ((llIterNat M n s : Nat) : Int) := by
  intro n
  induction n with
  | zero => intro s; rfl
  | succ n ih =>
    intro s
    rw [llIter, llIterNat, llStep_cast M hM s, ih]

theorem lucas_lehmer_test_eq_llNat (p : Nat) : lucas_lehmer_test p = llNat p := by
  rcases Nat.eq_zero_or_pos p with h0 | h1
  · subst h0; rfl
  · rcases eq_or_ne p 2 with h2 | h2
    · simp [lucas_lehmer_test, llNat, h2]
    · have hM1 : 1 ≤ (1 <<< p) - 1 := by
        have h2' : 2 ≤ (1 <<< p : Nat) := by
          rw [Nat.one_shiftLeft]
          calc 2 = 2 ^ 1 := rfl
          _ ≤ 2 ^ p := Nat.pow_le_pow_right (by omega) h1
        omega
      rw [lucas_lehmer_test, llNat, if_neg h2, if_neg h2,
        show (4 : Int) = ((4 : Nat) : Int) from rfl, llIter_cast _ hM1]
      simp

theorem batchResults_eq (cs : List Nat) : batchResults cs = batchResultsN cs := by
  unfold batchResults batchResultsN
  exact List.map_congr_left fun c _ => by rw [lucas_lehmer_test_eq_llNat]

theorem findLoop_eq (known : List Nat) (bs : Nat) :
    ∀ fuel p, findLoop known bs fuel p = findLoopN known bs fuel p := by
  intro fuel
  induction fuel with
  | zero => intro p; rfl
  | succ fuel ih =>
    intro p
    rw [findLoop, findLoopN]
    simp only [batchResults_eq]
    rcases hgen : genCandidates known (fuel+1) bs p with _ | ⟨cs, p'⟩
    · rfl
    · simp only
      rcases hfind : (batchResultsN cs).find? (fun r => r.2) with _ | r
      · rw [hfind]
        exact ih p'
      · rw [hfind]

theorem find_next_eq (start : Nat) (known : List Nat) (np fuel : Nat) :
    find_next_mersenne_prime start known np fuel = find_nextN start known np fuel := by
  unfold find_next_mersenne_prime find_nextN
  exact findLoop_eq known (np * 2) fuel _

theorem trialLoop_false_divisor (n : Nat) :
    ∀ fuel i, 5 ≤ i → trialLoop n fuel i = false → ∃ d, d ∣ n ∧ 1 < d ∧ d < n := by
  intro fuel
  induction fuel with
  | zero => intro i _ hf; simp [trialLoop] at hf
  | succ fuel ih =>
    intro i h5 hf
    rw [trialLoop] at hf
    by_cases hi : i * i ≤ n
    · rw [if_pos hi] at hf
      by_cases hd : (n % i = 0 || n % (i + 2) = 0) = true
      · have h5i : 5 * i ≤ i * i := Nat.mul_le_mul_right i h5
        rcases Bool.or_eq_true_iff.mp hd with hd1 | hd2
        · exact ⟨i, Nat.dvd_of_mod_eq_zero (by simpa using hd1), by omega, by omega⟩
        · exact ⟨i + 2, Nat.dvd_of_mod_eq_zero (by simpa using hd2), by omega, by omega⟩
      · rw [if_neg hd] at hf
        exact ih (i + 6) (by omega) hf
    · rw [if_neg hi] at hf
      exact absurd hf (by simp)

theorem is_prime_of_prime {p : Nat} (hp : Nat.Prime p) : is_prime p = true := by
  by_contra h
  have hf : is_prime p = false := by simpa using h
  have h2 := hp.two_le
  unfold is_prime at hf
  by_cases h1 : p ≤ 1
  · omega
  · rw [if_neg h1] at hf
    by_cases h3 : p ≤ 3
    · simp at hf
      omega
    · rw [if_neg h3] at hf
      by_cases h23 : (p % 2 = 0 || p % 3 = 0) = true
      · rcases Bool.or_eq_true_iff.mp h23 with hd | hd
        · have : (2 : Nat) ∣ p := Nat.dvd_of_mod_eq_zero (by simpa using hd)
          rcases (Nat.Prime.eq_one_or_self_of_dvd hp 2 this) with h | h <;> omega
        · have : (3 : Nat) ∣ p := Nat.dvd_of_mod_eq_zero (by simpa using hd)
          rcases (Nat.Prime.eq_one_or_self_of_dvd hp 3 this) with h | h <;> omega
      · rw [if_neg h23] at hf
        obtain ⟨d, hdvd, hd1, hdp⟩ := trialLoop_false_divisor p p 5 (by omega) hf
        rcases Nat.Prime.eq_one_or_self_of_dvd hp d hdvd with h | h <;> omega

theorem skip_iff (known : List Nat) (p : Nat) :
    (known.contains p || !is_prime p) = true ↔ ¬ goodCand known p := by
  unfold goodCand
  cases hc : known.contains p <;> cases hi : is_prime p <;> simp

theorem nextCand_char (known : List Nat) :
    ∀ fuel p c, nextCand known fuel p = some c →
      p ≤ c ∧ c % 2 = p % 2 ∧ goodCand known c ∧
        ∀ q, p ≤ q → q < c → q % 2 = p % 2 → ¬ goodCand known q := by
  intro fuel
  induction fuel with
  | zero => intro p c h; simp [nextCand] at h
  | succ fuel ih =>
    intro p c h
    rw [nextCand] at h
    by_cases hskip : (known.contains p || !is_prime p) = true
    · rw [if_pos hskip] at h
      obtain ⟨hle, hpar, hgood, hmin⟩ := ih (p + 2) c h
      refine ⟨by omega, by omega, hgood, ?_⟩
      intro q hq1 hq2 hq3
      rcases Nat.lt_or_ge q (p + 2) with hq4 | hq4
      · have hqp : q = p := by omega
        subst hqp
        exact (skip_iff known q).mp hskip
      · exact hmin q hq4 hq2 (by omega)
    · rw [if_neg hskip] at h
      injection h with h
      subst h
      have hgood : goodCand known p := by
        by_contra hg
        exact hskip ((skip_iff known p).mpr hg)
      exact ⟨le_refl _, rfl, hgood, fun q h1 h2 _ => absurd h2 (by omega)⟩

theorem genCandidates_char (known : List Nat) (fuel : Nat) :
    ∀ count p cs p', genCandidates known fuel count p = some (cs, p') →
      p ≤ p' ∧ p' % 2 = p % 2 ∧
      (∀ c ∈ cs, p ≤ c ∧ c < p' ∧ c % 2 = p % 2 ∧ goodCand known c) ∧
      (∀ q, p ≤ q → q < p' → q % 2 = p % 2 → goodCand known q → q ∈ cs) ∧
      List.Pairwise (· < ·) cs := by
  intro count
  induction count with
  | zero =>
    intro p cs p' h
    rw [genCandidates] at h
    injection h with h
    injection h with h1 h2
    subst h1; subst h2
    exact ⟨le_refl _, rfl, by simp, fun q h1 h2 _ _ => absurd h2 (by omega), by simp⟩
  | succ count ih =>
    intro p cs p' h
    revert h
    rw [genCandidates]
    rcases hnext : nextCand known fuel p with _ | c
    · intro h; exact Option.noConfusion h
    · dsimp only
      rcases hgen : genCandidates known fuel count (c + 2) with _ | ⟨cs', p''⟩
      · intro h; exact Option.noConfusion h
      · intro h
        injection h with h
        injection h with h1 h2
        subst h1; subst h2
        obtain ⟨hc1, hc2, hc3, hc4⟩ := nextCand_char known fuel p c hnext
        obtain ⟨hg1, hg2, hg3, hg4, hg5⟩ := ih (c + 2) cs' p'' hgen
        refine ⟨by omega, by omega, ?_, ?_, ?_⟩
        · intro x hx
          rcases List.mem_cons.mp hx with hx | hx
          · subst hx
            exact ⟨hc1, by omega, hc2, hc3⟩
          · obtain ⟨hx1, hx2, hx3, hx4⟩ := hg3 x hx
            exact ⟨by omega, hx2, by omega, hx4⟩
        · intro q hq1 hq2 hq3 hq4
          rcases Nat.lt_or_ge q c with hq5 | hq5
          · exact absurd hq4 (hc4 q hq1 hq5 hq3)
          · rcases Nat.eq_or_lt_of_le hq5 with hq6 | hq6
            · subst hq6
              exact List.mem_cons_self _ _
            · have hq7 : c + 2 ≤ q := by omega
              exact List.mem_cons_of_mem _ (hg4 q hq7 hq2 (by omega) hq4)
        · refine List.pairwise_cons.mpr ⟨?_, hg5⟩
          intro x hx
          obtain ⟨hx1, _, _, _⟩ := hg3 x hx
          omega

theorem batch_find_some (cs : List Nat) (hsort : List.Pairwise (· < ·) cs) (r : Nat × Bool) :
    (batchResults cs).find? (fun x => x.2) = some r →
      r.1 ∈ cs ∧ lucas_lehmer_test r.1 = true ∧
        ∀ c ∈ cs, lucas_lehmer_test c = true → r.1 ≤ c := by
  induction cs with
  | nil => intro h; simp [batchResults] at h
  | cons c rest ih =>
    intro h
    simp only [batchResults, List.map_cons] at h
    by_cases hc : lucas_lehmer_test c = true
    · rw [List.find?_cons_of_pos _ (by simpa using hc)] at h
      injection h with h
      subst h
      refine ⟨List.mem_cons_self _ _, hc, ?_⟩
      intro c' hc' _
      rcases List.mem_cons.mp hc' with hc' | hc'
      · omega
      · exact Nat.le_of_lt ((List.pairwise_cons.mp hsort).1 c' hc')
    · rw [List.find?_cons_of_neg _ (by simpa using hc)] at h
      obtain ⟨h1, h2, h3⟩ := ih (List.pairwise_cons.mp hsort).2 h
      refine ⟨List.mem_cons_of_mem _ h1, h2, ?_⟩
      intro c' hc' hLL
      rcases List.mem_cons.mp hc' with hc' | hc'
      · subst hc'; exact absurd hLL hc
      · exact h3 c' hc' hLL

theorem batch_find_none (cs : List Nat) :
    (batchResults cs).find? (fun x => x.2) = none →
      ∀ c ∈ cs, lucas_lehmer_test c = false := by
  intro h c hc
  have hmem : (c, lucas_lehmer_test c) ∈ batchResults cs :=
    List.mem_map_of_mem (fun c => (c, lucas_lehmer_test c)) hc
  have := List.find?_eq_none.mp h _ hmem
  simpa using this

theorem findLoop_char (known : List Nat) (bs : Nat) :
    ∀ fuel p v e, findLoop known bs fuel p = some (v, e) →
      p ≤ e ∧ e % 2 = p % 2 ∧ goodCand known e ∧ lucas_lehmer_test e = true ∧
        v = (1 <<< e) - 1 ∧
        ∀ q, p ≤ q → q < e → q % 2 = p % 2 → goodCand known q →
          lucas_lehmer_test q = false := by
  intro fuel
  induction fuel with
  | zero => intro p v e h; exact Option.noConfusion h
  | succ fuel ih =>
    intro p v e h
    rw [findLoop] at h
    rcases hgen : genCandidates known (fuel+1) bs p with _ | ⟨cs, p'⟩
    · rw [hgen] at h; exact Option.noConfusion h
    · rw [hgen] at h
      dsimp only at h
      obtain ⟨hg1, hg2, hg3, hg4, hg5⟩ := genCandidates_char known (fuel+1) bs p cs p' hgen
      rcases hfind : (batchResults cs).find? (fun x => x.2) with _ | r <;> rw [hfind] at h
      · dsimp only at h
        have hnone := batch_find_none cs hfind
        obtain ⟨hi1, hi2, hi3, hi4, hi5, hi6⟩ := ih p' v e h
        refine ⟨by omega, by omega, hi3, hi4, hi5, ?_⟩
        intro q hq1 hq2 hq3 hq4
        rcases Nat.lt_or_ge q p' with hq5 | hq5
        · exact hnone q (hg4 q hq1 hq5 hq3 hq4)
        · exact hi6 q hq5 hq2 (by omega) hq4
      · dsimp only at h
        obtain ⟨hr1, hr2, hr3⟩ := batch_find_some cs hg5 r hfind
        injection h with h
        injection h with h1 h2
        obtain ⟨he1, he2, he3, he4⟩ := hg3 r.1 hr1
        subst h2
        refine ⟨he1, he3, he4, hr2, h1.symm, ?_⟩
        intro q hq1 hq2 hq3 hq4
        have hqcs : q ∈ cs := hg4 q hq1 (by omega) hq3 hq4
        by_contra hLL
        have hLL' : lucas_lehmer_test q = true := by simpa using hLL
        have := hr3 q hqcs hLL'
        omega

theorem findLoop_unique (known : List Nat) (bs₁ bs₂ f₁ f₂ p : Nat) (r₁ r₂ : Nat × Nat)
    (h₁ : findLoop known bs₁ f₁ p = some r₁) (h₂ : findLoop known bs₂ f₂ p = some r₂) :
    r₁ = r₂ := by
  obtain ⟨ha1, ha2, ha3, ha4, ha5, ha6⟩ := findLoop_char known bs₁ f₁ p r₁.1 r₁.2 (by
    rw [← h₁])
  obtain ⟨hb1, hb2, hb3, hb4, hb5, hb6⟩ := findLoop_char known bs₂ f₂ p r₂.1 r₂.2 (by
    rw [← h₂])
  have he : r₁.2 = r₂.2 := by
    rcases Nat.lt_trichotomy r₁.2 r₂.2 with h | h | h
    · have := hb6 r₁.2 ha1 h (by omega) ha3
      rw [ha4] at this
      exact absurd this (by simp)
    · exact h
    · have := ha6 r₂.2 hb1 h (by omega) hb3
      rw [hb4] at this
      exact absurd this (by simp)
  have hv : r₁.1 = r₂.1 := by rw [ha5, hb5, he]
  exact Prod.ext hv he

theorem split_chunks_neg (cs : Nat) :
    ∀ fuel (x : Int), x < 0 → split_chunks cs fuel x = none := by
  intro fuel
  induction fuel with
  | zero => intro x hx; rw [split_chunks, if_neg (by omega : ¬x = 0)]
  | succ fuel ih =>
    intro x hx
    rw [split_chunks, if_neg (by omega : ¬x = 0)]
    have hneg : Int.fdiv x (2 ^ cs) < 0 := by
      rw [Int.fdiv_eq_ediv _ (by positivity)]
      exact Int.ediv_neg' hx (by positivity)
    rw [ih _ hneg]

theorem split_chunks_zero_width :
    ∀ fuel (x : Int), x ≠ 0 → split_chunks 0 fuel x = none := by
  intro fuel
  induction fuel with
  | zero => intro x h0; rw [split_chunks, if_neg h0]
  | succ fuel ih =>
    intro x h0
    rw [split_chunks, if_neg h0, pow_zero, Int.fdiv_one, ih x h0]

theorem split_chunks_some (cs : Nat) (hcs : 1 ≤ cs) :
    ∀ fuel (x : Int), 0 ≤ x → x.toNat ≤ fuel → (split_chunks cs fuel x).isSome = true := by
  intro fuel
  induction fuel with
  | zero =>
    intro x hx hle
    have h0 : x = 0 := by omega
    rw [split_chunks, if_pos h0]
    rfl
  | succ fuel ih =>
    intro x hx hle
    rcases eq_or_ne x 0 with h0 | h0
    · rw [split_chunks, if_pos h0]; rfl
    · rw [split_chunks, if_neg h0]
      have hd0 : 0 ≤ Int.fdiv x (2 ^ cs) := Int.fdiv_nonneg hx (by positivity)
      have hdlt : (Int.fdiv x (2 ^ cs)).toNat < x.toNat := by
        rw [Int.fdiv_eq_ediv _ (by positivity)]
        have h2 : ((2:Int) ^ cs) = ((2 ^ cs : Nat) : Int) := by push_cast; rfl
        rw [h2, ← Int.toNat_of_nonneg hx, ← Int.ofNat_ediv]
        have hpow : 2 ^ 1 ≤ 2 ^ cs := Nat.pow_le_pow_right (by omega) hcs
        have hx0 : 0 < x.toNat := by omega
        have := Nat.div_lt_self hx0 (by omega : 1 < 2 ^ cs)
        omega
      have hrec := ih (Int.fdiv x (2 ^ cs)) hd0 (by omega)
      rcases hsplit : split_chunks cs fuel (Int.fdiv x (2 ^ cs)) with _ | rest
      · rw [hsplit] at hrec; exact absurd hrec (by simp)
      · rfl

theorem split_chunks_bounds (cs : Nat) :
    ∀ fuel (x : Int) chunks, split_chunks cs fuel x = some chunks →
      ∀ c ∈ chunks, 0 ≤ c ∧ c < 2 ^ cs := by
  intro fuel
  induction fuel with
  | zero =>
    intro x chunks h
    rw [split_chunks] at h
    by_cases h0 : x = 0
    · rw [if_pos h0] at h; injection h with h; subst h; simp
    · rw [if_neg h0] at h; exact Option.noConfusion h
  | succ fuel ih =>
    intro x chunks h
    rw [split_chunks] at h
    by_cases h0 : x = 0
    · rw [if_pos h0] at h; injection h with h; subst h; simp
    · rw [if_neg h0] at h
      rcases hrec : split_chunks cs fuel (Int.fdiv x (2 ^ cs)) with _ | rest <;> rw [hrec] at h
      · exact Option.noConfusion h
      · injection h with h
        subst h
        intro c hc
        rcases List.mem_cons.mp hc with hc | hc
        · subst hc
          exact ⟨Int.emod_nonneg x (by positivity), Int.emod_lt_of_pos x (by positivity)⟩
        · exact ih _ rest hrec c hc

theorem combine_chunks_cons (c : Int) (rest : List Int) (cs : Nat) :
    combine_chunks (c :: rest) cs = Int.lor (combine_chunks rest cs * 2 ^ cs) c := by
  unfold combine_chunks
  rw [List.reverse_cons, List.foldl_append]
  rfl

theorem nat_lor_disjoint : ∀ (k a b : Nat), b < 2 ^ k → (a * 2 ^ k) ||| b = a * 2 ^ k + b := by
  intro k
  induction k with
  | zero =>
    intro a b hb
    have hb0 : b = 0 := by omega
    subst hb0
    simp
  | succ k ih =>
    intro a b hb
    have hpow : 2 ^ (k+1) = 2 * 2 ^ k := by ring
    have hx2 : a * 2 ^ (k+1) % 2 = 0 := by
      have h : a * 2 ^ (k+1) = (a * 2 ^ k) * 2 := by ring
      omega
    have hdiv : a * 2 ^ (k+1) / 2 = a * 2 ^ k := by
      have h : a * 2 ^ (k+1) = (a * 2 ^ k) * 2 := by ring
      omega
    have hkey : (a * 2 ^ (k+1) ||| b) / 2 = a * 2 ^ (k+1) / 2 ||| b / 2 := Nat.or_div_two
    rw [hdiv, ih a (b / 2) (by omega)] at hkey
    have hmod : (a * 2 ^ (k+1) ||| b) % 2 = b % 2 := by
      rcases Nat.mod_two_eq_zero_or_one b with h | h
      · rcases Nat.mod_two_eq_zero_or_one (a * 2 ^ (k+1) ||| b) with h2 | h2
        · omega
        · have := Nat.or_mod_two_eq_one.mp h2
          omega
      · have h2 : (a * 2 ^ (k+1) ||| b) % 2 = 1 := Nat.or_mod_two_eq_one.mpr (Or.inr h)
        omega
    have hfull : a * 2 ^ (k+1) ||| b =
        2 * ((a * 2 ^ (k+1) ||| b) / 2) + (a * 2 ^ (k+1) ||| b) % 2 := by omega
    rw [hkey, hmod] at hfull
    omega

theorem int_lor_ofNat (a b : Nat) : Int.lor (a : Int) (b : Int) = ((a ||| b : Nat) : Int) := rfl

theorem int_lor_disjoint (k : Nat) (a b : Int) (ha : 0 ≤ a) (hb0 : 0 ≤ b) (hb : b < 2 ^ k) :
    Int.lor (a * 2 ^ k) b = a * 2 ^ k + b := by
  lift a to Nat using ha
  lift b to Nat using hb0
  have hbk : b < 2 ^ k := by exact_mod_cast hb
  have h2 : ((2:Int) ^ k) = ((2 ^ k : Nat) : Int) := by push_cast; rfl
  rw [h2, ← Nat.cast_mul, int_lor_ofNat, nat_lor_disjoint k a b hbk]
  push_cast
  ring

theorem split_combine (cs : Nat) (hcs : 1 ≤ cs) :
    ∀ fuel (x : Int) chunks, 0 ≤ x → split_chunks cs fuel x = some chunks →
      combine_chunks chunks cs = x := by
  intro fuel
  induction fuel with
  | zero =>
    intro x chunks hx h
    rw [split_chunks] at h
    by_cases h0 : x = 0
    · rw [if_pos h0] at h
      injection h with h
      subst h
      rw [h0]
      rfl
    · rw [if_neg h0] at h; exact Option.noConfusion h
  | succ fuel ih =>
    intro x chunks hx h
    rw [split_chunks] at h
    by_cases h0 : x = 0
    · rw [if_pos h0] at h; injection h with h; subst h; rw [h0]; rfl
    · rw [if_neg h0] at h
      rcases hrec : split_chunks cs fuel (Int.fdiv x (2 ^ cs)) with _ | rest <;> rw [hrec] at h
      · exact Option.noConfusion h
      · injection h with h
        subst h
        have hb : (0:Int) < 2 ^ cs := by positivity
        have hd0 : 0 ≤ Int.fdiv x (2 ^ cs) := Int.fdiv_nonneg hx (by positivity)
        have hcomb := ih (Int.fdiv x (2 ^ cs)) rest hd0 hrec
        rw [combine_chunks_cons, hcomb,
          int_lor_disjoint cs _ _ hd0 (Int.emod_nonneg x (by positivity))
            (Int.emod_lt_of_pos x hb),
          Int.fdiv_eq_ediv _ (le_of_lt hb), mul_comm]
        exact Int.ediv_add_emod x (2 ^ cs)

theorem mersenne_cast (p : Nat) : (((1 <<< p) - 1 : Nat) : Int) = 2 ^ p - 1 := by
  rw [Nat.one_shiftLeft, Nat.cast_sub Nat.one_le_two_pow]
  push_cast
  ring

theorem llSpecStep_iterate (p : Nat) :
    ∀ (n : Nat) (s : Int), (llSpecStep p)^[n] s = llIter ((2:Int) ^ p - 1) n s := by
  intro n
  induction n with
  | zero => intro s; rfl
  | succ n ih =>
    intro s
    rw [Function.iterate_succ_apply, llIter, llSpecStep, pow_two, ih]

theorem nextCandGPU_char (known : List Nat) :
    ∀ fuel p c, nextCandGPU known fuel p = some c →
      p < c ∧ known.contains c = false ∧ (c % 6 = 1 ∨ c % 6 = 5) := by
  intro fuel
  induction fuel with
  | zero => intro p c h; exact Option.noConfusion h
  | succ fuel ih =>
    intro p c h
    rw [nextCandGPU] at h
    by_cases h1 : known.contains (p + 1) = true
    · rw [if_pos h1] at h
      obtain ⟨ha, hb, hc⟩ := ih (p + 1) c h
      exact ⟨by omega, hb, hc⟩
    · rw [if_neg h1] at h
      by_cases h2 : (p + 1) % 6 ≠ 1 ∧ (p + 1) % 6 ≠ 5
      · rw [if_pos h2] at h
        obtain ⟨ha, hb, hc⟩ := ih (p + 1) c h
        exact ⟨by omega, hb, hc⟩
      · rw [if_neg h2] at h
        injection h with h
        subst h
        have hcf : known.contains (p + 1) = false := by
          rcases hcc : known.contains (p + 1) with _ | _
          · rfl
          · exact absurd hcc h1
        refine ⟨by omega, hcf, by tauto⟩

/-- Claim C2: for every prime `p ≥ 2`, `lucas_lehmer_test p` returns true at
the hardcoded terminal case `p = 2`, and otherwise starts from `s = 4`,
applies `s ← (s² − 2) mod (2^p − 1)` exactly `p − 2` times, and returns true
iff the final residue is 0. -/
theorem claim_C2 (p : Nat) (hp : Nat.Prime p) :
    lucas_lehmer_test p = if p = 2 then true else ((llSpecStep p)^[p - 2] 4 == 0) := by
  rcases eq_or_ne p 2 with h2 | h2
  · simp [lucas_lehmer_test, h2]
  · rw [if_neg h2, lucas_lehmer_test, if_neg h2, mersenne_cast, llSpecStep_iterate]

/-- Witness for C2 at the concrete prime `p = 13`. -/
theorem claim_C2_witness :
    lucas_lehmer_test 13 = if 13 = 2 then true else ((llSpecStep 13)^[13 - 2] 4 == 0) :=
  claim_C2 13 (by norm_num)

/-- Claim C9, counterexample: the GPU variant `verify_mersenne_prime`
(`Mersenne_GPU.py`) consults the external oracle for every `p`; with an
oracle answering false it returns false even at `p = 1000`, far above any
small threshold, so it does not return true unconditionally above a
threshold. -/
theorem claim_C9_counterexample :
    verify_mersenne_prime_gpu (fun _ => false) 1000 = false := rfl

/-- Claim C9 (amended): the CPU `verify_mersenne_prime` cross-checks the
Mersenne number against the oracle exactly when gmpy2 is available and
`p < 100`, and returns true unconditionally for every `p ≥ 100`; the GPU
variant invokes the oracle for every `p`. -/
theorem claim_C9 :
    (∀ (has_gmpy2 : Bool) (oracle : Nat → Bool) (p : Nat), 100 ≤ p →
        verify_mersenne_prime has_gmpy2 oracle p = true) ∧
    (∀ (oracle : Nat → Bool) (p : Nat), p < 100 →
        verify_mersenne_prime true oracle p = oracle ((1 <<< p) - 1)) ∧
    (∀ (oracle : Nat → Bool) (p : Nat),
        verify_mersenne_prime_gpu oracle p = oracle ((1 <<< p) - 1)) := by
  refine ⟨?_, ?_, ?_⟩
  · intro g oracle p hp
    unfold verify_mersenne_prime
    have hdec : decide (p < 100) = false := by
      simp only [decide_eq_false_iff_not]
      omega
    rw [hdec]
    simp
  · intro oracle p hp
    unfold verify_mersenne_prime
    have hdec : decide (p < 100) = true := by
      simpa using hp
    rw [hdec]
    simp
  · intro oracle p
    rfl

/-- Witness for C9 at `p = 150` with the constantly-false oracle. -/
theorem claim_C9_witness : verify_mersenne_prime true (fun _ => false) 150 = true :=
  claim_C9.1 true (fun _ => false) 150 (by omega)

/-- Claim C4, counterexample: the GPU candidate loop submits 25 (composite)
to the Lucas-Lehmer test when started at 24 with an empty known list — it
has no primality filter. -/
theorem claim_C4_counterexample : nextCandGPU [] 10 24 = some 25 ∧ ¬ Nat.Prime 25 := by
  constructor
  · decide
  · decide

/-- Claim C4 (amended): the CPU candidate loop emits only odd exponents
(whenever the scan pointer is odd, which `find_next_mersenne_prime`
guarantees), never a member of the known list, only exponents passing the
trial-division filter, and its emissions are strictly increasing; the
returned exponent of `find_next_mersenne_prime` is always odd.  The GPU
candidate loop emits strictly increasing non-members congruent to 1 or 5
mod 6, but performs no primality check. -/
theorem claim_C4 :
    (∀ (known : List Nat) (fuel p c : Nat), p % 2 = 1 → nextCand known fuel p = some c →
        c % 2 = 1 ∧ known.contains c = false ∧ is_prime c = true ∧
          ∀ fuel' c', nextCand known fuel' (c + 2) = some c' → c < c') ∧
    (∀ (start : Nat) (known : List Nat) (np fuel v e : Nat),
        find_next_mersenne_prime start known np fuel = some (v, e) → e % 2 = 1) ∧
    (∀ (known : List Nat) (fuel p c : Nat), nextCandGPU known fuel p = some c →
        p < c ∧ known.contains c = false ∧ (c % 6 = 1 ∨ c % 6 = 5)) := by
  refine ⟨?_, ?_, ?_⟩
  · intro known fuel p c hodd h
    obtain ⟨h1, h2, h3, _⟩ := nextCand_char known fuel p c h
    refine ⟨by omega, h3.1, h3.2, ?_⟩
    intro fuel' c' h'
    have := (nextCand_char known fuel' (c + 2) c' h').1
    omega
  · intro start known np fuel v e h
    unfold find_next_mersenne_prime at h
    dsimp only at h
    by_cases h2 : (start + 1) % 2 = 0
    · rw [if_pos h2] at h
      have := (findLoop_char known (np * 2) fuel (start + 1 + 1) v e h).2.1
      omega
    · rw [if_neg h2] at h
      have := (findLoop_char known (np * 2) fuel (start + 1) v e h).2.1
      omega
  · exact fun known fuel p c h => nextCandGPU_char known fuel p c h

/-- Witness for C4 applying the CPU part at `known = []`, `p = 5`. -/
theorem claim_C4_witness :
    5 % 2 = 1 ∧ List.contains [] 5 = false ∧ is_prime 5 = true ∧
      ∀ fuel' c', nextCand [] fuel' (5 + 2) = some c' → 5 < c' :=
  claim_C4.1 [] 1 5 5 (by decide) (by decide)

set_option maxRecDepth 4000000

/-- Claim C3, counterexample: at `p = 67` (whose modulus 2^67 − 1 exceeds a
64-bit word) the chunked path reconstructs `M` as the wrapped value −1, its
floor-mod by −1 collapses every residue to 0, and the kernel reports a
Mersenne prime, while the exact path reports composite — the two paths are
not bit-identical there. -/
theorem claim_C3_counterexample :
    lucas_lehmer_test_cuda 67 = true ∧ lucas_lehmer_test 67 = false := by
  constructor
  · decide
  · decide

/-- Claim C3 (amended): the chunked-limb path agrees with the native
arbitrary-precision path for every `p ≤ 31` — the largest range in which
squaring a residue below `2^p − 1` cannot overflow the signed 64-bit
accumulator (this includes `p = 31`, whose modulus exceeds a single 30-bit
limb); beyond it the int64 accumulator can wrap and the verdicts can
differ (e.g. at `p = 67`). -/
theorem claim_C3 : ∀ p, p ≤ 31 → lucas_lehmer_test_cuda p = lucas_lehmer_test p := by
  decide

/-- Witness for C3 at `p = 31`, a modulus wider than one 30-bit limb. -/
theorem claim_C3_witness : lucas_lehmer_test_cuda 31 = lucas_lehmer_test 31 :=
  claim_C3 31 (by decide)

/-- Claim C8: at `p = 61` the modulus `2^61 − 1` fits an int64 but the
intermediate product `s * s` does not; the kernel silently wraps and
returns a *false* verdict for an actual Mersenne prime, while the exact
path returns true.  No error is detected or surfaced anywhere in
`Mersenne_GPU.py` — the wrapped value flows straight into the primality
verdict, exactly what the specification's error-handling section forbids. -/
theorem claim_C8 :
    lucas_lehmer_test_cuda 61 = false ∧ lucas_lehmer_test 61 = true := by
  constructor
  · decide
  · decide

/-- Claim C7: the batched search returns the same `(value, exponent)` pair
with `num_processes = 1` and with `num_processes = 8` whenever both runs
return at all — parallelism only changes the batch size, and the returned
result is characterised batch-size-independently as the smallest good
candidate whose Lucas-Lehmer test is true. -/
theorem claim_C7 (start : Nat) (known : List Nat) (f₁ f₂ : Nat) (r₁ r₂ : Nat × Nat)
    (h₁ : find_next_mersenne_prime start known 1 f₁ = some r₁)
    (h₂ : find_next_mersenne_prime start known 8 f₂ = some r₂) : r₁ = r₂ := by
  unfold find_next_mersenne_prime at h₁ h₂
  dsimp only at h₁ h₂
  exact findLoop_unique known (1 * 2) (8 * 2) f₁ f₂ _ r₁ r₂ h₁ h₂

/-- Witness for C7: from start 2 with no known exponents, both
parallelism 1 and parallelism 8 return `(7, 3)`. -/
theorem claim_C7_witness : ((7, 3) : Nat × Nat) = ((7, 3) : Nat × Nat) :=
  claim_C7 2 [] 10 10 (7, 3) (7, 3) (by decide) (by decide)

/-- Claim C6: within one completed batch (results are collected in
candidate order independently of worker completion order), `findLoop`
returns the batch member with the smallest exponent among those whose
Lucas-Lehmer verdict is true; and when no member of the batch tests true
it proceeds to the next batch at the updated scan pointer. -/
theorem claim_C6 (known : List Nat) (bs fuel p : Nat) (cs : List Nat) (p' : Nat)
    (hgen : genCandidates known (fuel+1) bs p = some (cs, p')) :
    (∀ r, (batchResults cs).find? (fun x => x.2) = some r →
        lucas_lehmer_test r.1 = true ∧ r.1 ∈ cs ∧
          (∀ c ∈ cs, lucas_lehmer_test c = true → r.1 ≤ c) ∧
          findLoop known bs (fuel+1) p = some ((1 <<< r.1) - 1, r.1)) ∧
    ((batchResults cs).find? (fun x => x.2) = none →
        findLoop known bs (fuel+1) p = findLoop known bs fuel p') := by
  have hsorted := (genCandidates_char known (fuel+1) bs p cs p' hgen).2.2.2.2
  constructor
  · intro r hfind
    obtain ⟨h1, h2, h3⟩ := batch_find_some cs hsorted r hfind
    refine ⟨h2, h1, h3, ?_⟩
    rw [findLoop, hgen]
    dsimp only
    rw [hfind]
  · intro hfind
    rw [findLoop, hgen]
    dsimp only
    rw [hfind]

/-- Witness for C6 on the concrete batch `[3, 5]` drawn from start 3 with
no known exponents: the smallest true exponent 3 is selected. -/
theorem claim_C6_witness :
    lucas_lehmer_test (3, true).1 = true ∧ (3, true).1 ∈ [3, 5] ∧
      (∀ c ∈ [3, 5], lucas_lehmer_test c = true → (3, true).1 ≤ c) ∧
      findLoop [] 2 4 3 = some ((1 <<< (3, true).1) - 1, (3, true).1) :=
  (claim_C6 [] 2 3 3 [3, 5] 7 (by decide)).1 (3, true) (by decide)

/-- Claim C5, counterexample: `split_chunks` does not terminate on the
negative input −1 with chunk_size 30, nor on the positive input 1 with
chunk_size 0 (the shift `number >>= 0` makes no progress), so the
round-trip identity cannot hold for *any* integer and *any* chunk size. -/
theorem claim_C5_counterexample :
    ¬ splitTerminates 30 (-1) ∧ ¬ splitTerminates 0 1 := by
  constructor
  · rintro ⟨fuel, hf⟩
    rw [split_chunks_neg 30 fuel (-1) (by omega)] at hf
    exact absurd hf (by simp)
  · rintro ⟨fuel, hf⟩
    rw [split_chunks_zero_width fuel 1 (by omega)] at hf
    exact absurd hf (by simp)

/-- Claim C5 (amended): for every chunk_size ≥ 1 and every nonnegative
integer `M`, whenever `split_chunks` terminates (which it always does on
such inputs), recombining the limbs reproduces `M` exactly. -/
theorem claim_C5 (chunk_size : Nat) (M : Int) (fuel : Nat) (chunks : List Int)
    (hcs : 1 ≤ chunk_size) (hM : 0 ≤ M)
    (h : split_chunks chunk_size fuel M = some chunks) :
    combine_chunks chunks chunk_size = M :=
  split_combine chunk_size hcs fuel M chunks hM h

/-- Witness for C5 at `M = 12345`, chunk_size 30. -/
theorem claim_C5_witness : combine_chunks [12345] 30 = 12345 :=
  claim_C5 30 12345 2 [12345] (by omega) (by omega) (by decide)

/-- Claim C10: with any chunk_size ≥ 1, `split_chunks` terminates exactly
on nonnegative inputs (on a negative input the loop never exits: the
arithmetic right shift of a negative number stays negative), and every
chunk of a terminating run lies in `[0, 2^chunk_size − 1]`. -/
theorem claim_C10 (chunk_size : Nat) (number : Int) (hcs : 1 ≤ chunk_size) :
    (splitTerminates chunk_size number ↔ 0 ≤ number) ∧
    (∀ fuel chunks, split_chunks chunk_size fuel number = some chunks →
      ∀ c ∈ chunks, 0 ≤ c ∧ c ≤ 2 ^ chunk_size - 1) := by
  constructor
  · constructor
    · rintro ⟨fuel, hf⟩
      by_contra hneg
      rw [split_chunks_neg chunk_size fuel number (by omega)] at hf
      exact absurd hf (by simp)
    · intro hnn
      exact ⟨number.toNat, split_chunks_some chunk_size hcs number.toNat number hnn (le_refl _)⟩
  · intro fuel chunks h c hc
    have := split_chunks_bounds chunk_size fuel number chunks h c hc
    omega

/-- Witness for C10 at chunk_size 30, input 5. -/
theorem claim_C10_witness : splitTerminates 30 5 :=
  (claim_C10 30 5 (by omega)).1.mpr (by omega)

/-- Justification that the fuel given to `split_chunks` inside
`lucas_lehmer_test_cuda` always suffices, so the model's `getD []` never
takes its default and the embedding matches the (terminating) host-side
Python split exactly. -/
theorem lucas_lehmer_test_cuda_fuel (p : Nat) :
    (split_chunks 30 ((((1 <<< p) - 1 : Nat) : Int).toNat + 1)
      (((1 <<< p) - 1 : Nat) : Int)).isSome = true :=
  split_chunks_some 30 (by omega) _ _ (by positivity) (by omega)

theorem scanB_lift :
    ∀ q, 127 < q → q < 521 → is_prime q = true → lucas_lehmer_test q = false := by
  have hs : scanB = true := by decide
  rw [scanB] at hs
  intro q h1 h2 hip
  have hq := List.all_eq_true.mp hs q (List.mem_range.mpr h2)
  have hd : decide (127 < q) = true := by simpa using h1
  rw [hd, hip] at hq
  simp only [Bool.not_true, Bool.false_or] at hq
  rw [lucas_lehmer_test_eq_llNat]
  simpa using hq

/-- Claim C1: from start 127 with the twelve seeded exponents, the search
returns the pair `(2^521 − 1, 521)` — whatever the parallelism and fuel,
any returned answer is that pair, and with parallelism 1 and fuel 300 the
run concretely returns it; moreover the Lucas-Lehmer test holds at 521 and
fails at every prime strictly between 127 and 521. -/
theorem claim_C1 :
    (∀ (np fuel : Nat) (r : Nat × Nat),
        find_next_mersenne_prime 127 knownC1 np fuel = some r →
          r = ((1 <<< 521) - 1, 521)) ∧
    find_next_mersenne_prime 127 knownC1 1 300 = some ((1 <<< 521) - 1, 521) ∧
    lucas_lehmer_test 521 = true ∧
    (∀ p, 127 < p → p < 521 → Nat.Prime p → lucas_lehmer_test p = false) := by
  have h521 : lucas_lehmer_test 521 = true := by
    rw [lucas_lehmer_test_eq_llNat]
    decide
  have hgood : goodCand knownC1 521 := by
    constructor
    · decide
    · decide
  refine ⟨?_, ?_, h521, ?_⟩
  · intro np fuel r h
    unfold find_next_mersenne_prime at h
    dsimp only at h
    rw [show (if (127 + 1) % 2 = 0 then 127 + 1 + 1 else 127 + 1) = 129 by norm_num] at h
    obtain ⟨hc1, hc2, hc3, hc4, hc5, hc6⟩ :=
      findLoop_char knownC1 (np * 2) fuel 129 r.1 r.2 (by rw [h])
    rcases Nat.lt_trichotomy r.2 521 with hlt | heq | hgt
    · have hfalse := scanB_lift r.2 (by omega) hlt hc3.2
      rw [hc4] at hfalse
      exact absurd hfalse (by simp)
    · have hv : r.1 = (1 <<< 521) - 1 := by rw [hc5, heq]
      exact Prod.ext hv heq
    · have hfalse := hc6 521 (by omega) hgt (by norm_num) hgood
      rw [h521] at hfalse
      exact absurd hfalse (by simp)
  · rw [find_next_eq]
    decide
  · intro p h1 h2 hp
    exact scanB_lift p h1 h2 (is_prime_of_prime hp)

/-- Witness for C1: the theorem's final conjunct applied at the prime 131. -/
theorem claim_C1_witness : lucas_lehmer_test 131 = false :=
  claim_C1.2.2.2 131 (by norm_num) (by norm_num) (by norm_num)
